import Mathlib

/-!
Verification development for the js-reverse-engineer repository
(Segmentation & Token-Budgeted Analysis Orchestrator and its CLI front end).

The repository implements, in `src/index.ts`, the CLI commands `analyze`,
`metrics` and `libraries` together with `getVersion` and `getFileMetrics`;
those functions are embedded here directly from the TypeScript source.
The core pipeline (lexical boundary scanner, library filter, chunk builder,
importance scorer, analysis orchestrator, result merger) exists in the
repository only as type declarations (`src/types`) and design documents;
the definitions for those components below are modelled from the spec, as
their doc comments state, and theorems about them are theorems about that
spec-faithful model.

Machine integers are modelled as `Nat`: every quantity involved (byte sizes,
token counts, offsets) is non-negative and far below 2^53, where JavaScript
number arithmetic on integers is exact, so no overflow wrapping is needed.
-/

namespace JsRev

/- ## CLI embeddings, from src/index.ts -/

/-- File metrics record, from `FileMetrics` in src/index.ts.  The
`functions` field of the source (a regex-based rough count) is omitted:
no claim mentions it and no other field depends on it. -/
structure FileMetrics where
  size : Nat
  lines : Nat
  estimatedTokens : Nat
deriving DecidableEq

/-- Embedding of `getFileMetrics` from src/index.ts:
`size = Buffer.byteLength(content, "utf8")` is the UTF-8 byte size,
`lines = content.split("\n").length`, and
`estimatedTokens = Math.ceil(size / 4)`; for a natural number `size`,
`Math.ceil(size / 4)` equals `(size + 3) / 4` in natural division. -/
def getFileMetrics (content : String) : FileMetrics :=
  { size := content.utf8ByteSize
    lines := (content.splitOn "\n").length
    estimatedTokens := (content.utf8ByteSize + 3) / 4 }

/-- Modelled from the spec: the chunk builder's characters-to-tokens
estimate with a configurable ratio (default 4 characters per token).
The chunk-building subsystem is absent from the source; this definition
follows the spec sentence "a fixed conservative ratio of characters to
tokens, configurable, default 4 characters/token", applied to the same
UTF-8 byte size that `getFileMetrics` measures. -/
def estimateWithCharsPerToken (cpt : Nat) (content : String) : Nat :=
  (content.utf8ByteSize + cpt - 1) / cpt

/-- Package manifest view: the only field `getVersion` reads. -/
structure PackageJson where
  version : Option String

/-- Embedding of `getVersion` from src/index.ts.  The filesystem is
abstracted into the results of its three effectful steps: `packageExists`
(the `existsSync` answer), `readPackage` (the `readFileSync` result, with
`Except.error` standing for a thrown exception, which the source catches),
and `parseJson` (the `JSON.parse` result plus extraction of the `version`
field; `Except.error` stands for a parse exception).  JavaScript
`packageJson.version || "0.1.0"` yields the fallback both when the field
is absent and when it is the falsy empty string. -/
def getVersion (packageExists : Bool) (readPackage : Except Unit String)
    (parseJson : String → Except Unit PackageJson) : String :=
  if packageExists then
    match readPackage with
    | .error _ => "0.1.0"
    | .ok txt =>
      match parseJson txt with
      | .error _ => "0.1.0"
      | .ok pj =>
        match pj.version with
        | some v => if v = "" then "0.1.0" else v
        | none => "0.1.0"
  else "0.1.0"

/-- Embedding of the chunk computation in `handleMetrics` from
src/index.ts, line `Math.ceil(metrics.estimatedTokens / 200000)`:
the divisor 200000 is hard-coded in the source. -/
def chunksNeededOfTokens (t : Nat) : Nat :=
  (t + 199999) / 200000

/-- The `metrics` command's reported chunk count for a given content,
composing `getFileMetrics` with the hard-coded 200000-token divisor. -/
def chunksNeeded (content : String) : Nat :=
  chunksNeededOfTokens (getFileMetrics content).estimatedTokens

/-- Default of the `analyze` command's `--max-tokens` option,
the string "180000" in src/index.ts. -/
def analyzeMaxTokensDefault : Nat := 180000

/- ## Lexical Boundary Scanner, modelled from the spec (section 4.1) -/

/-- Double quote character. -/
def chQuoteD : Char := Char.ofNat 34
/-- Single quote character. -/
def chQuoteS : Char := Char.ofNat 39
/-- Backtick character, the template-literal delimiter. -/
def chBacktick : Char := Char.ofNat 96
/-- Opening curly brace. -/
def chBraceL : Char := Char.ofNat 123
/-- Closing curly brace. -/
def chBraceR : Char := Char.ofNat 125
/-- Opening parenthesis. -/
def chParenL : Char := Char.ofNat 40
/-- Closing parenthesis. -/
def chParenR : Char := Char.ofNat 41
/-- Opening square bracket. -/
def chBrackL : Char := Char.ofNat 91
/-- Closing square bracket. -/
def chBrackR : Char := Char.ofNat 93

/-- Modelled from the spec: lexical context frames of the boundary
scanner.  `code tmplChild depth` is plain code (inside a template
expression when `tmplChild` is true) with `depth` open brackets of any
kind; the other frames are the unsafe-split regions the spec lists:
double- and single-quoted strings, template literals, and line and block
comments.  The scanner itself is absent from the source; this model
follows the spec contract of section 4.1. -/
inductive Frame
  | code (tmplChild : Bool) (depth : Nat)
  | strDQ
  | strSQ
  | tmpl
  | lineC
  | blockC
deriving DecidableEq

/-- Pending one-character lookback of the scanner: `slashF` after a `/`
in code (possible comment opener), `starF` after a `*` in a block comment
(possible closer), `dollarF` after a `$` in a template literal (possible
interpolation opener), `escF` after a backslash in a string or template. -/
inductive PFlag
  | noF
  | slashF
  | starF
  | dollarF
  | escF
deriving DecidableEq

/-- Scanner state: a stack of context frames (head is the current
context; the bottom is always top-level code) plus the pending flag. -/
structure ScanSt where
  stack : List Frame
  flag : PFlag
deriving DecidableEq

/-- Initial scanner state: top-level code at bracket depth zero. -/
def baseSt : ScanSt := ⟨[Frame.code false 0], PFlag.noF⟩

/-- One input character processed in a code frame (with no pending
slash): brackets adjust the depth, quotes and backticks push unsafe
frames, a closing brace at depth zero of a template expression returns
to the enclosing template literal, and a slash becomes pending. -/
def codeStep (tc : Bool) (d : Nat) (rest : List Frame) (c : Char) : ScanSt :=
  if c = '/' then ⟨Frame.code tc d :: rest, PFlag.slashF⟩
  else if c = chBraceL ∨ c = chParenL ∨ c = chBrackL then
    ⟨Frame.code tc (d + 1) :: rest, PFlag.noF⟩
  else if c = chParenR ∨ c = chBrackR then
    ⟨Frame.code tc (d - 1) :: rest, PFlag.noF⟩
  else if c = chBraceR then
    if tc ∧ d = 0 then ⟨rest, PFlag.noF⟩
    else ⟨Frame.code tc (d - 1) :: rest, PFlag.noF⟩
  else if c = chQuoteD then ⟨Frame.strDQ :: Frame.code tc d :: rest, PFlag.noF⟩
  else if c = chQuoteS then ⟨Frame.strSQ :: Frame.code tc d :: rest, PFlag.noF⟩
  else if c = chBacktick then ⟨Frame.tmpl :: Frame.code tc d :: rest, PFlag.noF⟩
  else ⟨Frame.code tc d :: rest, PFlag.noF⟩

/-- One input character processed inside a template literal (with no
pending escape): backslash makes an escape pending, a backtick closes
the literal, a dollar makes an interpolation pending. -/
def tmplStep (stack rest : List Frame) (c : Char) : ScanSt :=
  if c = '\\' then ⟨stack, PFlag.escF⟩
  else if c = chBacktick then ⟨rest, PFlag.noF⟩
  else if c = '$' then ⟨stack, PFlag.dollarF⟩
  else ⟨stack, PFlag.noF⟩

/-- One input character processed inside a quoted string (with no
pending escape): backslash makes an escape pending and the matching
quote closes the string. -/
def strStep (stack rest : List Frame) (q c : Char) : ScanSt :=
  if c = '\\' then ⟨stack, PFlag.escF⟩
  else if c = q then ⟨rest, PFlag.noF⟩
  else ⟨stack, PFlag.noF⟩

/-- Total single-character transition of the scanner.  There is no
reject state: every character in every state maps to a successor state,
so the scanner cannot fail on malformed input; unterminated strings or
comments simply leave their frame on the stack until end of input. -/
def stepChar (st : ScanSt) (c : Char) : ScanSt :=
  match st.stack with
  | [] => st
  | f :: rest =>
    match f, st.flag with
    | Frame.code tc d, PFlag.slashF =>
      if c = '/' then ⟨Frame.lineC :: Frame.code tc d :: rest, PFlag.noF⟩
      else if c = '*' then ⟨Frame.blockC :: Frame.code tc d :: rest, PFlag.noF⟩
      else codeStep tc d rest c
    | Frame.code tc d, _ => codeStep tc d rest c
    | Frame.strDQ, PFlag.escF => ⟨st.stack, PFlag.noF⟩
    | Frame.strDQ, _ => strStep st.stack rest chQuoteD c
    | Frame.strSQ, PFlag.escF => ⟨st.stack, PFlag.noF⟩
    | Frame.strSQ, _ => strStep st.stack rest chQuoteS c
    | Frame.tmpl, PFlag.escF => ⟨st.stack, PFlag.noF⟩
    | Frame.tmpl, PFlag.dollarF =>
      if c = chBraceL then ⟨Frame.code true 0 :: st.stack, PFlag.noF⟩
      else tmplStep st.stack rest c
    | Frame.tmpl, _ => tmplStep st.stack rest c
    | Frame.lineC, _ => if c = '\n' then ⟨rest, PFlag.noF⟩ else ⟨st.stack, PFlag.noF⟩
    | Frame.blockC, PFlag.starF =>
      if c = '/' then ⟨rest, PFlag.noF⟩
      else if c = '*' then ⟨st.stack, PFlag.starF⟩
      else ⟨st.stack, PFlag.noF⟩
    | Frame.blockC, _ =>
      if c = '*' then ⟨st.stack, PFlag.starF⟩ else ⟨st.stack, PFlag.noF⟩

/-- Safe-split decision: a boundary mark is recorded after a statement
terminator or closing brace that returns the scanner to top-level code
at bracket depth zero with nothing pending. -/
def emitsMark (st : ScanSt) (c : Char) : Bool :=
  decide ((c = ';' ∨ c = chBraceR) ∧ stepChar st c = baseSt)

/-- Folding step of the scanner over one character: advance the state,
advance the byte position by the UTF-8 size of the character, and append
a safe-split mark (the byte offset just after the character) when one is
found. -/
def scanStep : ScanSt × Nat × List Nat → Char → ScanSt × Nat × List Nat
  | (st, pos, marks), c =>
    (stepChar st c, pos + c.utf8Size,
      if emitsMark st c then marks ++ [pos + c.utf8Size] else marks)

/-- End-of-input states that are not degraded: top-level code at depth
zero with nothing pending, possibly inside a line comment (a line
comment running to end of input is ordinary). -/
def cleanAtEOF (st : ScanSt) : Bool :=
  st = baseSt ∨ st = ⟨[Frame.lineC, Frame.code false 0], PFlag.noF⟩

/-- Modelled from the spec: the lexical boundary scanner of section 4.1.
A single streaming pass over the buffer producing the finite list of
safe-split byte offsets in ascending order, plus a malformed-input note
(the `MalformedInputBoundary` degradation) when end of input is reached
inside a string, comment, template, bracket nest, or pending lookback. -/
def scanBuffer (s : String) : List Nat × Bool :=
  let r := s.data.foldl scanStep (baseSt, 0, [])
  (r.2.2, !cleanAtEOF r.1)

/-- Spec section 8 example of malformed input: a function whose body
opens a single-quoted string that never terminates (the brace is written
with an escape, the quote via its code point). -/
def malformedExample : String :=
  "function a()\x7breturn " ++ String.singleton chQuoteS ++ "unterminated"

/- ## Chunk Builder, modelled from the spec (section 4.3) -/

/-- Modelled from the spec: token estimate of a byte range at the
default conservative ratio of 4 characters per token (the ceiling of the
byte length divided by 4, as in `getFileMetrics`). -/
def segTokens (s e : Nat) : Nat := (e - s + 3) / 4

/-- Modelled from the spec: a chunk with its primary byte range
`[startB, endB)`, its accumulated token estimate, and the explicit
oversized flag for a single safe-split segment that alone exceeds the
`maxTokens` budget (the spec's oversized-function chunk, which is
emitted, never dropped or force-split). -/
structure Chunk where
  startB : Nat
  endB : Nat
  estimatedTokens : Nat
  oversized : Bool
deriving DecidableEq

/-- Modelled from the spec: the safe-split segments of a buffer of
`len` bytes, walking the scanner's boundary marks from a cursor.
Consecutive in-range marks produce consecutive byte ranges; marks that
are not strictly increasing or that fall outside the buffer are skipped,
and the remainder after the last usable mark becomes one final segment.
Empty segments are never produced. -/
def mkSegs (len : Nat) : Nat → List Nat → List (Nat × Nat)
  | cursor, [] => if cursor < len then [(cursor, len)] else []
  | cursor, m :: ms =>
    if cursor < m ∧ m ≤ len then (cursor, m) :: mkSegs len m ms
    else mkSegs len cursor ms

/-- Partially built chunk of the greedy walk: its byte range so far and
its accumulated token estimate. -/
structure ChunkAcc where
  startB : Nat
  endB : Nat
  tokens : Nat

/-- Closing a partially built chunk emits it unflagged. -/
def closeAcc (a : ChunkAcc) : Chunk := ⟨a.startB, a.endB, a.tokens, false⟩

/-- A single segment exceeding the budget is emitted as its own chunk
with the oversized flag set. -/
def oversizedChunk (s e : Nat) : Chunk := ⟨s, e, segTokens s e, true⟩

/-- Modelled from the spec: the greedy chunk-building walk of section
4.3.  Safe-split segments are accumulated while the running token
estimate stays within `maxT`; a segment that would exceed the budget
closes the current chunk at the last safe boundary; a segment that alone
exceeds the budget is emitted as an explicitly flagged oversized chunk
(the preserve-functions behavior: never silently dropped, never split at
an unsafe boundary). -/
def buildGo (maxT : Nat) : Option ChunkAcc → List (Nat × Nat) → List Chunk
  | none, [] => []
  | some a, [] => [closeAcc a]
  | none, (s, e) :: rest =>
    if maxT < segTokens s e then oversizedChunk s e :: buildGo maxT none rest
    else buildGo maxT (some ⟨s, e, segTokens s e⟩) rest
  | some a, (s, e) :: rest =>
    if a.tokens + segTokens s e ≤ maxT then
      buildGo maxT (some ⟨a.startB, e, a.tokens + segTokens s e⟩) rest
    else
      closeAcc a ::
        (if maxT < segTokens s e then oversizedChunk s e :: buildGo maxT none rest
         else buildGo maxT (some ⟨s, e, segTokens s e⟩) rest)

/-- Chunk building over a segment list, starting with no open chunk. -/
def buildChunks (maxT : Nat) (segs : List (Nat × Nat)) : List Chunk :=
  buildGo maxT none segs

/-- Chaining predicate for segments: consecutive non-empty byte ranges
from a cursor, ending exactly at `len`. -/
def segsChain : Nat → List (Nat × Nat) → Nat → Prop
  | pos, [], len => pos = len
  | pos, (s, e) :: rest, len => s = pos ∧ pos < e ∧ segsChain e rest len

/-- Chaining predicate for chunks: consecutive non-empty primary byte
ranges from a position, ending exactly at `len` — the no-gap, no-overlap
exact cover of `[pos, len)`. -/
def covers : Nat → List Chunk → Nat → Prop
  | pos, [], len => pos = len
  | pos, c :: cs, len => c.startB = pos ∧ pos < c.endB ∧ covers c.endB cs len

/-- Number of chunks in a list whose primary range contains byte `b`. -/
def countCovering (cs : List Chunk) (b : Nat) : Nat :=
  (cs.filter (fun c => decide (c.startB ≤ b ∧ b < c.endB))).length

/-- Well-formedness of the optional open chunk of the greedy walk: when
one is open, its range is non-empty and ends at the walk's cursor. -/
def accOk : Option ChunkAcc → Nat → Prop
  | none, _ => True
  | some a, pos => a.startB < a.endB ∧ a.endB = pos

/-- Start position of the chunk being formed: the open chunk's start, or
the cursor itself when no chunk is open. -/
def startOf : Option ChunkAcc → Nat → Nat
  | none, pos => pos
  | some a, _ => a.startB

/- ## Analysis data model, from src/types and the spec (section 3) -/

/-- Severity levels of a finding, from the severity union in src/types. -/
inductive Severity
  | low
  | medium
  | high
  | critical
deriving DecidableEq

/-- Numeric rank of a severity, used for the merger's ordering. -/
def sevRank : Severity → Nat
  | .low => 0
  | .medium => 1
  | .high => 2
  | .critical => 3

/-- Modelled from the spec: a finding (section 3).  Category and
description are abstracted to identifiers, confidence in [0,1] is scaled
to an integer percentage, and the location is a byte offset
(chunk-relative before merging, absolute after). -/
structure Finding where
  category : Nat
  severity : Severity
  confidence : Nat
  location : Nat
  description : Nat
deriving DecidableEq

/-- Modelled from the spec: the analyzer adapter's error classification
(section 6): transient failures are retried, permanent ones are not. -/
inductive AnalyzerError
  | transient
  | permanent
deriving DecidableEq

/-- Modelled from the spec: a chunk as the orchestrator and merger see
it — stable id, primary byte-range start (for absolute location
resolution), token estimate and importance score. -/
structure OChunk where
  id : Nat
  startB : Nat
  estimatedTokens : Nat
  importance : Nat
deriving DecidableEq

/-- Modelled from the spec: the per-chunk `AnalysisOutcome` (section 3):
findings, success flag, attempt count and error kind. -/
structure AnalysisOutcome where
  chunkId : Nat
  findings : List Finding
  succeeded : Bool
  attempts : Nat
  errorKind : Option AnalyzerError
deriving DecidableEq

/-- Analyzer capability (spec section 6): one call per attempt index and
chunk, returning findings or a classified error.  Indexing by the
attempt lets a transient failure succeed on a retry. -/
def Analyzer : Type := Nat → OChunk → Except AnalyzerError (List Finding)

/- ## Analysis Orchestrator, modelled from the spec (section 4.5) -/

/-- Modelled from the spec: the per-chunk retry loop.  A success or a
permanent failure ends the loop at once (permanent failures are never
retried); a transient failure is retried while fuel remains, and is
recorded as a failed outcome when the retry budget is exhausted.  Every
path returns an outcome carrying the chunk's id. -/
def retryLoop (az : Analyzer) (c : OChunk) : Nat → Nat → AnalysisOutcome
  | attemptsDone, 0 =>
    match az attemptsDone c with
    | .ok fs => ⟨c.id, fs, true, attemptsDone + 1, none⟩
    | .error .permanent => ⟨c.id, [], false, attemptsDone + 1, some .permanent⟩
    | .error .transient => ⟨c.id, [], false, attemptsDone + 1, some .transient⟩
  | attemptsDone, fuel + 1 =>
    match az attemptsDone c with
    | .ok fs => ⟨c.id, fs, true, attemptsDone + 1, none⟩
    | .error .permanent => ⟨c.id, [], false, attemptsDone + 1, some .permanent⟩
    | .error .transient => retryLoop az c (attemptsDone + 1) fuel

/-- Modelled from the spec: budget selection over the importance-ordered
chunk list.  A chunk whose token estimate would push the cumulative
spend past the budget is skipped (dropped, not truncated) and the walk
continues; the result is the pair (submitted, skipped). -/
def selectChunks (budget : Nat) : Nat → List OChunk → List OChunk × List OChunk
  | _, [] => ([], [])
  | spent, c :: rest =>
    if spent + c.estimatedTokens ≤ budget then
      let p := selectChunks budget (spent + c.estimatedTokens) rest
      (c :: p.1, p.2)
    else
      let p := selectChunks budget spent rest
      (p.1, c :: p.2)

/-- Result of a whole orchestrator run: one outcome per submitted chunk
and the recorded ids of every skipped chunk (drops are never silent). -/
structure RunResult where
  outcomes : List AnalysisOutcome
  skippedIds : List Nat
deriving DecidableEq

/-- Modelled from the spec: the orchestrator run (section 4.5).  The
bounded-concurrency dispatch is modelled by its observable behavior:
each submitted chunk's outcome is a function of the analyzer capability
and that chunk alone (in-flight calls share no mutable state), so the
model maps the retry loop over the selected chunks; skipped chunks are
recorded by id. -/
def orchestrate (az : Analyzer) (retries budget : Nat)
    (chunks : List OChunk) : RunResult :=
  let p := selectChunks budget 0 chunks
  { outcomes := p.1.map (fun c => retryLoop az c 0 retries)
    skippedIds := p.2.map (fun c => c.id) }

/- ## Importance Scorer, modelled from the spec (section 4.4) -/

/-- Number of occurrences of a pattern (a literal character sequence) at
any starting position of a character list. -/
def hitCount (p : List Char) : List Char → Nat
  | [] => 0
  | c :: rest =>
    (if (c :: rest).take p.length = p then 1 else 0) + hitCount p rest

/-- Modelled from the spec: configurable scoring weights (section 4.4);
weights are configuration, not hard-coded constants. -/
structure ScoreWeights where
  densityW : Nat
  libPenaltyW : Nat
  depBonusW : Nat
deriving DecidableEq

/-- Modelled from the spec: the importance scorer (section 4.4), a pure
weighted combination of security-pattern hit density over the chunk's
content, an inverse penalty when the chunk overlaps a high-confidence
filtered library match, and a bonus for chunks with outgoing dependency
edges. -/
def score (w : ScoreWeights) (content : String) (overlapsLibrary : Bool)
    (depCount : Nat) (pats : List (List Char)) : Nat :=
  let hits := (pats.map (fun p => hitCount p content.data)).sum
  let density := hits * 100 / (content.length + 1)
  let base := w.densityW * density + (if 0 < depCount then w.depBonusW else 0)
  if overlapsLibrary then base / (w.libPenaltyW + 1) else base

/- ## Result Merger, modelled from the spec (section 4.6) -/

/-- Output ordering of merged findings: severity descending, then
absolute location ascending. -/
def findingOrd (a b : Finding) : Prop :=
  sevRank b.severity < sevRank a.severity ∨
    (sevRank a.severity = sevRank b.severity ∧ a.location ≤ b.location)

instance : DecidableRel findingOrd := by
  intro a b
  unfold findingOrd
  infer_instance

instance : IsTotal Finding findingOrd := by
  constructor
  intro a b
  unfold findingOrd
  omega

instance : IsTrans Finding findingOrd := by
  constructor
  intro a b c hab hbc
  unfold findingOrd at hab hbc ⊢
  omega

/-- Modelled from the spec: the merger first re-imposes the canonical
chunk order on the unordered outcome set (outcomes arrive in analyzer
completion order; chunks are listed in importance order, ties resolved
by their list position), removing any dependence on completion order. -/
def canonicalOutcomes (chunks : List OChunk)
    (outs : List AnalysisOutcome) : List AnalysisOutcome :=
  chunks.filterMap (fun c => outs.find? (fun o => o.chunkId == c.id))

/-- Absolute-location resolution of one outcome's findings using its
chunk's primary byte-range start (spec section 4.6). -/
def absFindings (chunks : List OChunk) (o : AnalysisOutcome) : List Finding :=
  match chunks.find? (fun c => c.id == o.chunkId) with
  | none => []
  | some c => o.findings.map (fun f => { f with location := c.startB + f.location })

/-- Duplicate criterion of the merger: same category, same description
(description similarity modelled as equality of the description
identifier), and absolute locations within `n` bytes. -/
def dupKey (n : Nat) (f g : Finding) : Bool :=
  f.category == g.category && f.description == g.description &&
    (f.location ≤ g.location + n && g.location ≤ f.location + n)

/-- Modelled from the spec: deduplication keeping, for each duplicate
group, the highest-confidence instance, ties resolved in favor of the
earlier finding in canonical chunk-importance order. -/
def dedup (n : Nat) : List Finding → List Finding
  | [] => []
  | f :: rest =>
    (rest.filter (fun g => dupKey n f g)).foldl
        (fun best g => if best.confidence < g.confidence then g else best) f
      :: dedup n (rest.filter (fun g => !dupKey n f g))
termination_by l => l.length
decreasing_by
  simp only [List.length_cons]
  exact Nat.lt_succ_of_le (List.length_filter_le _ _)

/-- Merged final artifact: the ordered deduplicated findings plus
summary counters derived from them. -/
structure AnalysisResult where
  findings : List Finding
  totalFindings : Nat
  criticalCount : Nat
deriving DecidableEq

/-- Modelled from the spec: the result merger (section 4.6) —
canonical ordering of outcomes, absolute-location resolution,
deduplication, and the final sort by severity descending then location
ascending, with summary counters. -/
def mergeOutcomes (n : Nat) (chunks : List OChunk)
    (outs : List AnalysisOutcome) : AnalysisResult :=
  let canon := canonicalOutcomes chunks outs
  let ded := dedup n ((canon.map (absFindings chunks)).flatten)
  let ordered := List.insertionSort findingOrd ded
  { findings := ordered
    totalFindings := ordered.length
    criticalCount := (ordered.filter (fun f => f.severity == Severity.critical)).length }

/- ## Pipeline and configuration validation (spec sections 4 and 7) -/

/-- Chunking strategy configuration, from `ChunkingStrategy` in
src/types. -/
structure ChunkingStrategy where
  maxTokens : Nat
  overlapTokens : Nat
  preserveFunctions : Bool
  preserveScopes : Bool
  prioritizeImportant : Bool
deriving DecidableEq

/-- Modelled from the spec: configuration validation; a strategy is
valid exactly when `overlapTokens < maxTokens` (section 7 names
`overlapTokens >= maxTokens` as the invalid case). -/
def validStrategy (s : ChunkingStrategy) : Bool :=
  s.overlapTokens < s.maxTokens

/-- The only two fatal error kinds: an invalid configuration and a
buffer-load failure (spec section 7); everything else is data. -/
inductive FatalError
  | configurationInvalid
  | bufferLoadFailure
deriving DecidableEq

/-- Chunks handed to the orchestrator, built by scanning the buffer and
running the greedy chunk builder; ids are positional. -/
def pipelineChunks (maxT : Nat) (content : String) : List OChunk :=
  (buildChunks maxT (mkSegs content.utf8ByteSize 0 (scanBuffer content).1)).enum.map
    (fun ic => ⟨ic.1, ic.2.startB, ic.2.estimatedTokens, 0⟩)

/-- Modelled from the spec: a whole pipeline run (sections 4 and 7).
The configuration is validated first: an invalid configuration is fatal
at startup, before any scanning, chunking, scoring or dispatch (the
error does not depend on the buffer or the analyzer).  A buffer-load
failure is the only other fatal outcome.  Once the buffer loads under a
valid configuration the run always completes with a result; per-chunk
analyzer failures are captured as outcome data, never raised. -/
def runPipeline (cfg : ChunkingStrategy) (retries budget dedupWindow : Nat)
    (load : Except Unit String) (az : Analyzer) : Except FatalError AnalysisResult :=
  if validStrategy cfg then
    match load with
    | .error _ => .error .bufferLoadFailure
    | .ok content =>
      let chunks := pipelineChunks cfg.maxTokens content
      let r := orchestrate az retries budget chunks
      .ok (mergeOutcomes dedupWindow chunks r.outcomes)
  else .error .configurationInvalid

end JsRev

namespace JsRev

/- ## Theorems for the CLI claims -/

/-- C1: for every source content string, the estimated token count of
`getFileMetrics` is the ceiling of the UTF-8 byte length divided by 4
(characterized by `s ≤ 4e < s + 4`), it agrees with the spec-modelled
configurable estimator at the default ratio of 4 characters per token,
and for every positive ratio `r` the configurable estimator is the
ceiling of the byte length divided by `r`. -/
theorem estimatedTokens_ceil_of_byteLength (content : String) :
    (content.utf8ByteSize ≤ 4 * (getFileMetrics content).estimatedTokens ∧
      4 * (getFileMetrics content).estimatedTokens < content.utf8ByteSize + 4) ∧
    estimateWithCharsPerToken 4 content = (getFileMetrics content).estimatedTokens ∧
    ∀ r : Nat, 0 < r →
      content.utf8ByteSize ≤ r * estimateWithCharsPerToken r content ∧
      r * estimateWithCharsPerToken r content < content.utf8ByteSize + r := by
  refine ⟨?_, ?_, ?_⟩
  · simp only [getFileMetrics]
    omega
  · simp only [getFileMetrics, estimateWithCharsPerToken]
    omega
  · intro r hr
    unfold estimateWithCharsPerToken
    have h1 := Nat.div_add_mod (content.utf8ByteSize + r - 1) r
    have h2 := Nat.mod_lt (content.utf8ByteSize + r - 1) hr
    omega

/-- Witness for C1 at a concrete input and ratio. -/
theorem estimatedTokens_ceil_of_byteLength_witness :
    "eval(x)".utf8ByteSize ≤ 3 * estimateWithCharsPerToken 3 "eval(x)" ∧
      3 * estimateWithCharsPerToken 3 "eval(x)" < "eval(x)".utf8ByteSize + 3 :=
  (estimatedTokens_ceil_of_byteLength "eval(x)").2.2 3 (by decide)

/-- C9: `getVersion` is total by construction (it returns a `String` on
every abstracted filesystem state), yields the manifest version exactly
when the file exists, reads, parses, and carries a truthy (non-empty)
version field, and yields the fallback "0.1.0" in every other case:
missing file, read exception, parse exception, absent version field, or
falsy empty version. -/
theorem getVersion_total_with_fallback
    (parseJson : String → Except Unit PackageJson) :
    (∀ txt pj v, parseJson txt = .ok pj → pj.version = some v → v ≠ "" →
      getVersion true (.ok txt) parseJson = v) ∧
    (∀ readPackage, getVersion false readPackage parseJson = "0.1.0") ∧
    (getVersion true (.error ()) parseJson = "0.1.0") ∧
    (∀ txt, parseJson txt = .error () →
      getVersion true (.ok txt) parseJson = "0.1.0") ∧
    (∀ txt pj, parseJson txt = .ok pj →
      (pj.version = none ∨ pj.version = some "") →
      getVersion true (.ok txt) parseJson = "0.1.0") := by
  refine ⟨?_, ?_, ?_, ?_, ?_⟩
  · intro txt pj v hok hv hne
    simp [getVersion, hok, hv, hne]
  · intro readPackage
    simp [getVersion]
  · simp [getVersion]
  · intro txt herr
    simp [getVersion, herr]
  · intro txt pj hok hv
    rcases hv with hv | hv <;> simp [getVersion, hok, hv]

/-- Witness for C9: with a parser returning a truthy version "1.2.3",
`getVersion` returns it. -/
theorem getVersion_total_with_fallback_witness :
    getVersion true (.ok "txt") (fun _ => .ok ⟨some "1.2.3"⟩) = "1.2.3" :=
  (getVersion_total_with_fallback (fun _ => .ok ⟨some "1.2.3"⟩)).1
    "txt" ⟨some "1.2.3"⟩ "1.2.3" rfl rfl (by decide)

/-- Splitting the empty string on a newline separator yields one element,
the empty string, matching JavaScript `"".split("\n")`. -/
theorem splitOn_empty_newline : ("".splitOn "\n") = [""] := by
  simp [String.splitOn]
  rw [String.splitOnAux, if_pos (by decide)]
  decide

/-- C10: the `metrics` command computes the reported chunk count as the
ceiling of `estimatedTokens / 200000` (characterized by
`t ≤ 200000c < t + 200000`) with the divisor 200000 hard-coded; it is not
the `analyze` command's `--max-tokens` default of 180000, as the token
count 190000 separates the two formulas; and for empty input content it
reports 0 chunks while still reporting 1 line, since splitting the empty
string on a newline yields one element. -/
theorem metrics_chunksNeeded_hardcoded :
    (∀ t : Nat, t ≤ 200000 * chunksNeededOfTokens t ∧
      200000 * chunksNeededOfTokens t < t + 200000) ∧
    (chunksNeededOfTokens 190000 = 1 ∧
      (190000 + analyzeMaxTokensDefault - 1) / analyzeMaxTokensDefault = 2) ∧
    chunksNeeded "" = 0 ∧ (getFileMetrics "").lines = 1 := by
  refine ⟨?_, by decide, ?_, ?_⟩
  case refine_2 =>
    have h0 : "".utf8ByteSize = 0 := by decide
    simp [chunksNeeded, chunksNeededOfTokens, getFileMetrics, h0]
  case refine_3 =>
    simp [getFileMetrics, splitOn_empty_newline]
  intro t
  unfold chunksNeededOfTokens
  omega

/- ## Helper lemmas for the scanner and chunk builder -/

/-- UTF-8 byte size of a string is the sum of the UTF-8 sizes of its
characters. -/
theorem utf8ByteSize_eq_sum (s : String) :
    s.utf8ByteSize = (s.data.map Char.utf8Size).sum := by
  cases s with
  | mk l =>
    show String.utf8ByteSize.go l = (l.map Char.utf8Size).sum
    induction l with
    | nil => rfl
    | cons c cs ih =>
      show String.utf8ByteSize.go cs + c.utf8Size = ((c :: cs).map Char.utf8Size).sum
      rw [List.map_cons, List.sum_cons, ih]
      omega

/-- Folding the scanner over a character list advances the byte position
by the total UTF-8 size of the characters. -/
theorem scan_foldl_pos (cs : List Char) :
    ∀ (st : ScanSt) (pos : Nat) (marks : List Nat),
      (cs.foldl scanStep (st, pos, marks)).2.1
        = pos + (cs.map Char.utf8Size).sum := by
  induction cs with
  | nil => intro st pos marks; simp
  | cons c rest ih =>
    intro st pos marks
    simp only [List.foldl_cons, scanStep, List.map_cons, List.sum_cons]
    rw [ih]
    omega

/-- Folding the scanner preserves sortedness and the position bound of
the accumulated safe-split marks. -/
theorem scan_foldl_inv (cs : List Char) :
    ∀ (st : ScanSt) (pos : Nat) (marks : List Nat),
      List.Sorted (· < ·) marks → (∀ m ∈ marks, 0 < m ∧ m ≤ pos) →
      List.Sorted (· < ·) (cs.foldl scanStep (st, pos, marks)).2.2 ∧
        ∀ m ∈ (cs.foldl scanStep (st, pos, marks)).2.2,
          0 < m ∧ m ≤ (cs.foldl scanStep (st, pos, marks)).2.1 := by
  induction cs with
  | nil =>
    intro st pos marks hs hm
    exact ⟨hs, hm⟩
  | cons c rest ih =>
    intro st pos marks hs hm
    have hsize := Char.utf8Size_pos c
    simp only [List.foldl_cons]
    by_cases he : emitsMark st c
    · have hstep : scanStep (st, pos, marks) c
          = (stepChar st c, pos + c.utf8Size, marks ++ [pos + c.utf8Size]) := by
        simp [scanStep, he]
      rw [hstep]
      refine ih _ _ _ ?_ ?_
      · refine List.pairwise_append.mpr ⟨hs, List.pairwise_singleton _ _, ?_⟩
        intro a ha b hb
        simp only [List.mem_singleton] at hb
        subst hb
        exact lt_of_le_of_lt (hm a ha).2 (by omega)
      · intro m hmem
        rcases List.mem_append.mp hmem with hmem | hmem
        · exact ⟨(hm m hmem).1, le_trans (hm m hmem).2 (by omega)⟩
        · simp only [List.mem_singleton] at hmem
          subst hmem
          exact ⟨by omega, le_refl _⟩
    · have hstep : scanStep (st, pos, marks) c
          = (stepChar st c, pos + c.utf8Size, marks) := by
        simp [scanStep, he]
      rw [hstep]
      refine ih _ _ _ hs ?_
      intro m hmem
      exact ⟨(hm m hmem).1, le_trans (hm m hmem).2 (by omega)⟩

/-- The segments produced from any mark list chain exactly from the
cursor to the end of the buffer. -/
theorem mkSegs_chain (len : Nat) :
    ∀ (marks : List Nat) (cursor : Nat), cursor ≤ len →
      segsChain cursor (mkSegs len cursor marks) len := by
  intro marks
  induction marks with
  | nil =>
    intro cursor hc
    by_cases h : cursor < len
    · simp only [mkSegs, if_pos h]
      exact ⟨rfl, h, rfl⟩
    · simp only [mkSegs, if_neg h]
      show cursor = len
      omega
  | cons m ms ih =>
    intro cursor hc
    by_cases h : cursor < m ∧ m ≤ len
    · simp only [mkSegs, if_pos h]
      exact ⟨rfl, h.1, ih m h.2⟩
    · simp only [mkSegs, if_neg h]
      exact ih cursor hc

/-- The greedy chunk walk transforms a chain of segments into a chain of
chunks, starting at the open chunk's start position. -/
theorem buildGo_covers_aux (maxT len : Nat) :
    ∀ (segs : List (Nat × Nat)) (acc : Option ChunkAcc) (pos : Nat),
      accOk acc pos → segsChain pos segs len →
      covers (startOf acc pos) (buildGo maxT acc segs) len := by
  intro segs
  induction segs with
  | nil =>
    intro acc pos hacc hch
    have hpl : pos = len := hch
    cases acc with
    | none =>
      simp only [buildGo, startOf]
      exact hpl
    | some a =>
      obtain ⟨ha1, ha2⟩ := hacc
      simp only [buildGo, startOf]
      refine ⟨rfl, ha1, ?_⟩
      show a.endB = len
      omega
  | cons seg rest ih =>
    intro acc pos hacc hch
    obtain ⟨s, e⟩ := seg
    obtain ⟨hs, hlt, hch2⟩ := hch
    subst hs
    cases acc with
    | none =>
      by_cases hov : maxT < segTokens s e
      · simp only [buildGo, if_pos hov, startOf]
        exact ⟨rfl, hlt, by simpa [startOf] using ih none e trivial hch2⟩
      · simp only [buildGo, if_neg hov, startOf]
        have hrec := ih (some ⟨s, e, segTokens s e⟩) e ⟨hlt, rfl⟩ hch2
        simpa [startOf] using hrec
    | some a =>
      obtain ⟨ha1, ha2⟩ := hacc
      by_cases hext : a.tokens + segTokens s e ≤ maxT
      · simp only [buildGo, if_pos hext, startOf]
        have hrec := ih (some ⟨a.startB, e, a.tokens + segTokens s e⟩) e
          ⟨show a.startB < e by omega, rfl⟩ hch2
        simpa [startOf] using hrec
      · simp only [buildGo, if_neg hext, startOf]
        refine ⟨rfl, ha1, ?_⟩
        show covers a.endB _ len
        rw [ha2]
        by_cases hov : maxT < segTokens s e
        · simp only [if_pos hov]
          exact ⟨rfl, hlt, by simpa [startOf] using ih none e trivial hch2⟩
        · simp only [if_neg hov]
          have hrec := ih (some ⟨s, e, segTokens s e⟩) e ⟨hlt, rfl⟩ hch2
          simpa [startOf] using hrec

/-- Bytes before the chain's start position are covered by no chunk of
the chain. -/
theorem covers_count_zero (len : Nat) :
    ∀ (cs : List Chunk) (pos b : Nat),
      covers pos cs len → b < pos → countCovering cs b = 0 := by
  intro cs
  induction cs with
  | nil => intro pos b _ _; simp [countCovering]
  | cons c cs2 ih =>
    intro pos b hcov hb
    obtain ⟨h1, h2, h3⟩ := hcov
    simp only [countCovering, List.filter_cons]
    rw [if_neg (by simp; omega)]
    exact ih c.endB b h3 (by omega)

/-- Bytes inside the covered interval are covered by exactly one chunk
of a chain. -/
theorem covers_count_one (len : Nat) :
    ∀ (cs : List Chunk) (pos b : Nat),
      covers pos cs len → pos ≤ b → b < len → countCovering cs b = 1 := by
  intro cs
  induction cs with
  | nil =>
    intro pos b hcov hpb hbl
    simp only [covers] at hcov
    omega
  | cons c cs2 ih =>
    intro pos b hcov hpb hbl
    obtain ⟨h1, h2, h3⟩ := hcov
    by_cases hb : b < c.endB
    · simp only [countCovering, List.filter_cons]
      rw [if_pos (by simp; omega)]
      simp only [List.length_cons]
      have h0 : countCovering cs2 b = 0 := covers_count_zero len cs2 c.endB b h3 hb
      simp only [countCovering] at h0
      omega
    · simp only [countCovering, List.filter_cons]
      rw [if_neg (by simp; omega)]
      exact ih c.endB b h3 (by omega) hbl

/-- The greedy walk keeps the accumulated token count within budget, so
every emitted chunk is within budget unless explicitly oversized. -/
theorem buildGo_budget (maxT : Nat) :
    ∀ (segs : List (Nat × Nat)) (acc : Option ChunkAcc),
      (∀ a, acc = some a → a.tokens ≤ maxT) →
      ∀ c ∈ buildGo maxT acc segs, c.estimatedTokens ≤ maxT ∨ c.oversized = true := by
  intro segs
  induction segs with
  | nil =>
    intro acc hacc c hc
    cases acc with
    | none => simp [buildGo] at hc
    | some a =>
      simp only [buildGo, List.mem_singleton] at hc
      subst hc
      exact Or.inl (hacc a rfl)
  | cons seg rest ih =>
    intro acc hacc c hc
    obtain ⟨s, e⟩ := seg
    cases acc with
    | none =>
      by_cases hov : maxT < segTokens s e
      · simp only [buildGo, if_pos hov, List.mem_cons] at hc
        rcases hc with hc | hc
        · subst hc; exact Or.inr rfl
        · exact ih none (by intro a ha; cases ha) c hc
      · simp only [buildGo, if_neg hov] at hc
        refine ih (some ⟨s, e, segTokens s e⟩) ?_ c hc
        intro a ha
        cases ha
        simpa using hov
    | some a =>
      by_cases hext : a.tokens + segTokens s e ≤ maxT
      · simp only [buildGo, if_pos hext] at hc
        refine ih (some ⟨a.startB, e, a.tokens + segTokens s e⟩) ?_ c hc
        intro a2 ha2
        cases ha2
        simpa using hext
      · simp only [buildGo, if_neg hext, List.mem_cons] at hc
        rcases hc with hc | hc
        · subst hc
          exact Or.inl (hacc a rfl)
        · by_cases hov : maxT < segTokens s e
          · rw [if_pos hov] at hc
            rcases List.mem_cons.mp hc with hc | hc
            · subst hc; exact Or.inr rfl
            · exact ih none (by intro a2 ha2; cases ha2) c hc
          · rw [if_neg hov] at hc
            refine ih (some ⟨s, e, segTokens s e⟩) ?_ c hc
            intro a2 ha2
            cases ha2
            simpa using hov

/-- Every over-budget segment is emitted as its own oversized chunk,
whatever the state of the walk. -/
theorem buildGo_oversized_emitted (maxT : Nat) :
    ∀ (segs : List (Nat × Nat)) (acc : Option ChunkAcc) (p : Nat × Nat),
      p ∈ segs → maxT < segTokens p.1 p.2 →
      oversizedChunk p.1 p.2 ∈ buildGo maxT acc segs := by
  intro segs
  induction segs with
  | nil => intro acc p hp; cases hp
  | cons seg rest ih =>
    intro acc p hp hov
    obtain ⟨s, e⟩ := seg
    rcases List.mem_cons.mp hp with hp | hp
    · subst hp
      dsimp only at hov ⊢
      cases acc with
      | none =>
        simp only [buildGo, if_pos hov]
        exact List.mem_cons_self _ _
      | some a =>
        have hext : ¬ a.tokens + segTokens s e ≤ maxT := by omega
        simp only [buildGo, if_neg hext, if_pos hov]
        exact List.mem_cons_of_mem _ (List.mem_cons_self _ _)
    · cases acc with
      | none =>
        by_cases hov2 : maxT < segTokens s e
        · simp only [buildGo, if_pos hov2]
          exact List.mem_cons_of_mem _ (ih none p hp hov)
        · simp only [buildGo, if_neg hov2]
          exact ih (some ⟨s, e, segTokens s e⟩) p hp hov
      | some a =>
        by_cases hext : a.tokens + segTokens s e ≤ maxT
        · simp only [buildGo, if_pos hext]
          exact ih (some ⟨a.startB, e, a.tokens + segTokens s e⟩) p hp hov
        · simp only [buildGo, if_neg hext]
          by_cases hov2 : maxT < segTokens s e
          · rw [if_pos hov2]
            exact List.mem_cons_of_mem _
              (List.mem_cons_of_mem _ (ih none p hp hov))
          · rw [if_neg hov2]
            exact List.mem_cons_of_mem _ (ih (some ⟨s, e, segTokens s e⟩) p hp hov)

/- ## Theorems for the core-model claims -/

/-- C2: every chunk produced by the chunk builder has its accumulated
token estimate within the configured budget unless it carries the
explicit oversized flag; and every safe-split segment that alone exceeds
the budget is still emitted, as its own explicitly flagged chunk, rather
than dropped or force-split. -/
theorem chunk_budget_except_oversized (maxT : Nat) (segs : List (Nat × Nat)) :
    (∀ c ∈ buildChunks maxT segs, c.estimatedTokens ≤ maxT ∨ c.oversized = true) ∧
    (∀ p ∈ segs, maxT < segTokens p.1 p.2 →
      oversizedChunk p.1 p.2 ∈ buildChunks maxT segs) := by
  constructor
  · exact buildGo_budget maxT segs none (by intro a ha; cases ha)
  · intro p hp hov
    exact buildGo_oversized_emitted maxT segs none p hp hov

/-- Witness for C2 at a concrete segment list: with budget 3 tokens, the
23-byte segment alone exceeds the budget and is emitted oversized. -/
theorem chunk_budget_except_oversized_witness :
    oversizedChunk 8 31 ∈ buildChunks 3 [(0, 8), (8, 31)] :=
  (chunk_budget_except_oversized 3 [(0, 8), (8, 31)]).2 (8, 31)
    (by decide) (by decide)

/-- C3: for every buffer length, mark list and budget, the primary byte
ranges of the produced chunks chain exactly from 0 to the buffer length
with no gaps and no overlaps, and every byte of the buffer lies in the
primary range of exactly one chunk. -/
theorem primary_ranges_partition (len maxT : Nat) (marks : List Nat) :
    covers 0 (buildChunks maxT (mkSegs len 0 marks)) len ∧
    ∀ b, b < len → countCovering (buildChunks maxT (mkSegs len 0 marks)) b = 1 := by
  have hch := mkSegs_chain len marks 0 (Nat.zero_le len)
  have hcov := buildGo_covers_aux maxT len (mkSegs len 0 marks) none 0 trivial hch
  simp only [startOf] at hcov
  exact ⟨hcov, fun b hb =>
    covers_count_one len _ 0 b hcov (Nat.zero_le b) hb⟩

/-- Witness for C3 at a concrete buffer and mark list. -/
theorem primary_ranges_partition_witness :
    countCovering (buildChunks 3 (mkSegs 20 0 [7, 12])) 9 = 1 :=
  (primary_ranges_partition 20 3 [7, 12]).2 9 (by decide)

/-- C4: the scanner is total by construction (a fold of a total step
function, with no reject state), its marks are finitely many, strictly
ascending and within the buffer; and on the spec's malformed example
(an unterminated single-quoted string) it emits no safe-split marks,
records the malformed-input note, and the remainder becomes exactly one
trailing chunk covering the whole buffer. -/
theorem scanner_total_ascending_degrades :
    (∀ s : String, List.Sorted (· < ·) (scanBuffer s).1 ∧
      ∀ m ∈ (scanBuffer s).1, 0 < m ∧ m ≤ s.utf8ByteSize) ∧
    scanBuffer malformedExample = ([], true) ∧
    mkSegs malformedExample.utf8ByteSize 0 (scanBuffer malformedExample).1
      = [(0, malformedExample.utf8ByteSize)] := by
  refine ⟨?_, by decide, by decide⟩
  intro s
  have h := scan_foldl_inv s.data baseSt 0 [] List.sorted_nil (by simp)
  have hpos := scan_foldl_pos s.data baseSt 0 []
  have hb : (scanBuffer s).1 = (s.data.foldl scanStep (baseSt, 0, [])).2.2 := rfl
  rw [hb]
  refine ⟨h.1, fun m hm => ⟨(h.2 m hm).1, ?_⟩⟩
  have hle := (h.2 m hm).2
  rw [hpos] at hle
  rw [utf8ByteSize_eq_sum]
  omega

/-- Witness for C4: the general part applied to a concrete well-formed
buffer and one of its concrete marks. -/
theorem scanner_total_ascending_degrades_witness :
    0 < 4 ∧ 4 ≤ "a=1;b=2;".utf8ByteSize :=
  (scanner_total_ascending_degrades.1 "a=1;b=2;").2 4 (by decide)

/- ## Helper lemmas for the orchestrator and merger -/

/-- Every outcome of the retry loop carries its chunk's id. -/
theorem retryLoop_chunkId (az : Analyzer) (c : OChunk) :
    ∀ (fuel ad : Nat), (retryLoop az c ad fuel).chunkId = c.id := by
  intro fuel
  induction fuel with
  | zero =>
    intro ad
    unfold retryLoop
    cases az ad c with
    | ok fs => rfl
    | error e => cases e <;> rfl
  | succ f ih =>
    intro ad
    unfold retryLoop
    cases az ad c with
    | ok fs => rfl
    | error e =>
      cases e with
      | transient => exact ih (ad + 1)
      | permanent => rfl

/-- The retry loop for a chunk depends only on the analyzer's behavior
on that chunk. -/
theorem retryLoop_congr (az1 az2 : Analyzer) (c : OChunk)
    (h : ∀ n, az1 n c = az2 n c) :
    ∀ (fuel ad : Nat), retryLoop az1 c ad fuel = retryLoop az2 c ad fuel := by
  intro fuel
  induction fuel with
  | zero =>
    intro ad
    unfold retryLoop
    rw [h ad]
  | succ f ih =>
    intro ad
    unfold retryLoop
    rw [h ad]
    cases az2 ad c with
    | ok fs => rfl
    | error e =>
      cases e with
      | transient => exact ih (ad + 1)
      | permanent => rfl

/-- Outcomes of chunks other than a distinguished id are unaffected by
how the analyzer behaves on that id. -/
theorem map_retry_filter_congr (az1 az2 : Analyzer) (retries cid0 : Nat)
    (hagree : ∀ n c, c.id ≠ cid0 → az1 n c = az2 n c) :
    ∀ (l : List OChunk),
      (l.map (fun c => retryLoop az1 c 0 retries)).filter
          (fun o => !(o.chunkId == cid0))
        = (l.map (fun c => retryLoop az2 c 0 retries)).filter
          (fun o => !(o.chunkId == cid0)) := by
  intro l
  induction l with
  | nil => rfl
  | cons c rest ih =>
    simp only [List.map_cons, List.filter_cons]
    by_cases hc : c.id = cid0
    · have h1 : (retryLoop az1 c 0 retries).chunkId = cid0 := by
        rw [retryLoop_chunkId]; exact hc
      have h2 : (retryLoop az2 c 0 retries).chunkId = cid0 := by
        rw [retryLoop_chunkId]; exact hc
      rw [if_neg (by simp [h1]), if_neg (by simp [h2])]
      exact ih
    · have heq : retryLoop az1 c 0 retries = retryLoop az2 c 0 retries :=
        retryLoop_congr az1 az2 c (fun n => hagree n c hc) retries 0
      rw [heq, ih]

/-- With a zero total budget, every chunk with a positive token estimate
is skipped. -/
theorem selectChunks_zero :
    ∀ (chunks : List OChunk), (∀ c ∈ chunks, 0 < c.estimatedTokens) →
      ∀ spent, selectChunks 0 spent chunks = ([], chunks) := by
  intro chunks
  induction chunks with
  | nil => intro _ spent; rfl
  | cons c rest ih =>
    intro h spent
    have hc : 0 < c.estimatedTokens := h c (List.mem_cons_self _ _)
    unfold selectChunks
    rw [if_neg (by omega), ih (fun x hx => h x (List.mem_cons_of_mem _ hx)) spent]

/-- A list search with an at-most-one-match predicate finds the unique
matching element. -/
theorem find?_eq_of_unique {α : Type} (p : α → Bool) :
    ∀ (l : List α) (a : α), a ∈ l → p a = true →
      (∀ b ∈ l, p b = true → b = a) → l.find? p = some a := by
  intro l
  induction l with
  | nil => intro a ha; cases ha
  | cons x xs ih =>
    intro a ha hpa huniq
    by_cases hx : p x = true
    · have hxa : x = a := huniq x (List.mem_cons_self _ _) hx
      subst hxa
      exact List.find?_cons_of_pos _ hx
    · have hax : a ∈ xs := by
        rcases List.mem_cons.mp ha with h | h
        · subst h; exact absurd hpa hx
        · exact h
      rw [List.find?_cons_of_neg _ hx]
      exact ih a hax hpa fun b hb hpb => huniq b (List.mem_cons_of_mem _ hb) hpb

/-- A list search with an at-most-one-match predicate is invariant under
permutation of the list. -/
theorem find?_perm_of_unique {α : Type} (p : α → Bool) (l1 l2 : List α)
    (hperm : l1.Perm l2)
    (huniq : ∀ a ∈ l1, ∀ b ∈ l1, p a = true → p b = true → a = b) :
    l1.find? p = l2.find? p := by
  by_cases hex : ∃ a ∈ l1, p a = true
  · obtain ⟨a, ha, hpa⟩ := hex
    rw [find?_eq_of_unique p l1 a ha hpa fun b hb hpb => huniq b hb a ha hpb hpa,
      find?_eq_of_unique p l2 a (hperm.mem_iff.mp ha) hpa
        fun b hb hpb => huniq b (hperm.mem_iff.mpr hb) a ha hpb hpa]
  · push_neg at hex
    rw [List.find?_eq_none.mpr fun x hx => by simp [hex x hx],
      List.find?_eq_none.mpr fun x hx => by simp [hex x (hperm.mem_iff.mpr hx)]]

/-- The canonical outcome order depends only on the set of outcomes, not
on their arrival order, when outcome chunk ids are distinct. -/
theorem canonicalOutcomes_perm (chunks : List OChunk)
    (o1 o2 : List AnalysisOutcome) (hperm : o1.Perm o2)
    (hnd : (o1.map (fun o => o.chunkId)).Nodup) :
    canonicalOutcomes chunks o1 = canonicalOutcomes chunks o2 := by
  unfold canonicalOutcomes
  have hinj := List.inj_on_of_nodup_map hnd
  refine List.filterMap_congr ?_
  intro c _
  refine find?_perm_of_unique _ _ _ hperm ?_
  intro a ha b hb hpa hpb
  refine hinj ha hb ?_
  have h1 : a.chunkId = c.id := by simpa using hpa
  have h2 : b.chunkId = c.id := by simpa using hpb
  rw [h1, h2]

/- ## Theorems for the orchestrator, merger and pipeline claims -/

/-- C5: the orchestrator returns exactly one outcome per submitted
chunk, carrying that chunk's id; the outcomes of all chunks other than a
distinguished one are unchanged when the analyzer's behavior changes
only on that chunk (so one chunk's permanent failure cannot abort the
run or disturb the other outcomes reaching the merger); and a chunk
whose analyzer call fails permanently still gets an outcome, recorded as
failed with the permanent error kind. -/
theorem orchestrator_outcome_for_every_chunk
    (az1 az2 : Analyzer) (retries budget : Nat) (chunks : List OChunk)
    (cid0 : Nat) (hagree : ∀ n c, c.id ≠ cid0 → az1 n c = az2 n c) :
    ((orchestrate az1 retries budget chunks).outcomes.length
        = (selectChunks budget 0 chunks).1.length) ∧
    (∀ c ∈ (selectChunks budget 0 chunks).1,
      ∃ o ∈ (orchestrate az1 retries budget chunks).outcomes, o.chunkId = c.id) ∧
    ((orchestrate az1 retries budget chunks).outcomes.filter
        (fun o => !(o.chunkId == cid0))
      = (orchestrate az2 retries budget chunks).outcomes.filter
        (fun o => !(o.chunkId == cid0))) ∧
    (∀ c ∈ (selectChunks budget 0 chunks).1, az1 0 c = .error .permanent →
      ∃ o ∈ (orchestrate az1 retries budget chunks).outcomes,
        o.chunkId = c.id ∧ o.succeeded = false ∧ o.errorKind = some .permanent) := by
  refine ⟨?_, ?_, ?_, ?_⟩
  · simp [orchestrate]
  · intro c hc
    refine ⟨retryLoop az1 c 0 retries, ?_, retryLoop_chunkId az1 c retries 0⟩
    simp only [orchestrate]
    exact List.mem_map_of_mem _ hc
  · simp only [orchestrate]
    exact map_retry_filter_congr az1 az2 retries cid0 hagree _
  · intro c hc hperm
    refine ⟨retryLoop az1 c 0 retries, ?_, retryLoop_chunkId az1 c retries 0, ?_, ?_⟩
    · simp only [orchestrate]
      exact List.mem_map_of_mem _ hc
    · cases retries with
      | zero => simp only [retryLoop, hperm]
      | succ f => simp only [retryLoop, hperm]
    · cases retries with
      | zero => simp only [retryLoop, hperm]
      | succ f => simp only [retryLoop, hperm]

/-- Witness for C5: five chunks, an analyzer permanently failing on
chunk 0, a second analyzer agreeing everywhere else; the failing chunk
still receives a failed outcome. -/
theorem orchestrator_outcome_for_every_chunk_witness :
    ∃ o ∈ (orchestrate
        (fun _ c => if c.id == 0 then .error .permanent else .ok [])
        2 100
        [⟨0, 0, 1, 9⟩, ⟨1, 10, 1, 8⟩, ⟨2, 20, 1, 7⟩, ⟨3, 30, 1, 6⟩,
          ⟨4, 40, 1, 5⟩]).outcomes,
      o.chunkId = 0 ∧ o.succeeded = false ∧ o.errorKind = some .permanent :=
  (orchestrator_outcome_for_every_chunk
      (fun _ c => if c.id == 0 then .error .permanent else .ok [])
      (fun _ _ => .ok []) 2 100
      [⟨0, 0, 1, 9⟩, ⟨1, 10, 1, 8⟩, ⟨2, 20, 1, 7⟩, ⟨3, 30, 1, 6⟩, ⟨4, 40, 1, 5⟩]
      0
      (by
        intro n c h
        have hb : (c.id == 0) = false := by simpa using h
        simp [hb])).2.2.2
    ⟨0, 0, 1, 9⟩ (by decide) (by rfl)

/-- C6: with a total token budget of zero, the orchestrator dispatches
no analyzer call (the outcome list is empty) and records every chunk as
skipped, without failing — for every analyzer, retry policy and chunk
list whose chunks have positive token estimates. -/
theorem orchestrator_zero_budget_all_skipped
    (az : Analyzer) (retries : Nat) (chunks : List OChunk)
    (hpos : ∀ c ∈ chunks, 0 < c.estimatedTokens) :
    (orchestrate az retries 0 chunks).outcomes = [] ∧
    (orchestrate az retries 0 chunks).skippedIds
      = chunks.map (fun c => c.id) := by
  have hsel := selectChunks_zero chunks hpos 0
  constructor
  · simp [orchestrate, hsel]
  · simp [orchestrate, hsel]

/-- Witness for C6 at a concrete chunk list. -/
theorem orchestrator_zero_budget_all_skipped_witness :
    (orchestrate (fun _ _ => .ok []) 3 0
        [⟨0, 0, 5, 1⟩, ⟨1, 20, 7, 1⟩]).outcomes = [] :=
  (orchestrator_zero_budget_all_skipped (fun _ _ => .ok []) 3
    [⟨0, 0, 5, 1⟩, ⟨1, 20, 7, 1⟩] (by decide)).1

/-- C7: the merger is deterministic — outcomes arriving in any analyzer
completion order (any permutation, with one outcome per chunk id)
produce the same merged result; its findings are sorted by severity
descending then absolute location ascending; and the scorer gives equal
scores for any two arrival orders of the security-pattern set — neither
depends on wall-clock time, which appears nowhere in their inputs. -/
theorem merge_deterministic_sorted
    (n : Nat) (chunks : List OChunk) (o1 o2 : List AnalysisOutcome)
    (hperm : o1.Perm o2) (hnd : (o1.map (fun o => o.chunkId)).Nodup) :
    mergeOutcomes n chunks o1 = mergeOutcomes n chunks o2 ∧
    List.Sorted findingOrd (mergeOutcomes n chunks o1).findings ∧
    ∀ (w : ScoreWeights) (content : String) (lib : Bool) (dep : Nat)
      (p1 p2 : List (List Char)), p1.Perm p2 →
        score w content lib dep p1 = score w content lib dep p2 := by
  refine ⟨?_, ?_, ?_⟩
  · unfold mergeOutcomes
    rw [canonicalOutcomes_perm chunks o1 o2 hperm hnd]
  · exact List.sorted_insertionSort findingOrd _
  · intro w content lib dep p1 p2 hp
    unfold score
    rw [List.Perm.sum_eq (hp.map _)]

/-- Witness for C7: two outcomes arriving in swapped order merge to the
same result. -/
theorem merge_deterministic_sorted_witness :
    mergeOutcomes 2 [⟨1, 0, 5, 9⟩, ⟨2, 50, 5, 3⟩]
        [⟨2, [⟨0, Severity.low, 60, 4, 7⟩], true, 1, none⟩,
          ⟨1, [⟨0, Severity.high, 80, 3, 7⟩], true, 1, none⟩]
      = mergeOutcomes 2 [⟨1, 0, 5, 9⟩, ⟨2, 50, 5, 3⟩]
        [⟨1, [⟨0, Severity.high, 80, 3, 7⟩], true, 1, none⟩,
          ⟨2, [⟨0, Severity.low, 60, 4, 7⟩], true, 1, none⟩] :=
  (merge_deterministic_sorted 2 [⟨1, 0, 5, 9⟩, ⟨2, 50, 5, 3⟩]
    [⟨2, [⟨0, Severity.low, 60, 4, 7⟩], true, 1, none⟩,
      ⟨1, [⟨0, Severity.high, 80, 3, 7⟩], true, 1, none⟩]
    [⟨1, [⟨0, Severity.high, 80, 3, 7⟩], true, 1, none⟩,
      ⟨2, [⟨0, Severity.low, 60, 4, 7⟩], true, 1, none⟩]
    (by decide) (by decide)).1

/-- C8: a configuration with `overlapTokens >= maxTokens` is rejected as
fatal at startup — the run returns the configuration error whatever the
buffer or the analyzer, so no scanning, chunking, scoring or dispatch
can have taken place; the only fatal error kinds are the configuration
error and the buffer-load error; and under a valid configuration with a
loadable buffer the run always completes with a result, per-chunk
failures included as data. -/
theorem config_invalid_fatal
    (cfg : ChunkingStrategy) (retries budget dedupWindow : Nat) :
    (cfg.maxTokens ≤ cfg.overlapTokens →
      ∀ (load : Except Unit String) (az : Analyzer),
        runPipeline cfg retries budget dedupWindow load az
          = .error .configurationInvalid) ∧
    (∀ (load : Except Unit String) (az : Analyzer) (e : FatalError),
      runPipeline cfg retries budget dedupWindow load az = .error e →
        e = .configurationInvalid ∨ e = .bufferLoadFailure) ∧
    (∀ (content : String) (az : Analyzer), cfg.overlapTokens < cfg.maxTokens →
      ∃ r, runPipeline cfg retries budget dedupWindow (.ok content) az = .ok r) := by
  refine ⟨?_, ?_, ?_⟩
  · intro hinv load az
    have hv : validStrategy cfg = false := by
      simp only [validStrategy, decide_eq_false_iff_not]
      omega
    simp [runPipeline, hv]
  · intro load az e h
    by_cases hv : validStrategy cfg
    · cases load with
      | error u =>
        simp [runPipeline, hv] at h
        exact Or.inr h.symm
      | ok content =>
        simp [runPipeline, hv] at h
    · simp [runPipeline, hv] at h
      exact Or.inl h.symm
  · intro content az hval
    have hv : validStrategy cfg = true := by
      simp only [validStrategy, decide_eq_true_eq]
      omega
    refine ⟨mergeOutcomes dedupWindow (pipelineChunks cfg.maxTokens content)
      (orchestrate az retries budget (pipelineChunks cfg.maxTokens content)).outcomes, ?_⟩
    simp [runPipeline, hv]

/-- Witness for C8: overlap 5 against budget 3 is rejected before any
processing, whatever the analyzer. -/
theorem config_invalid_fatal_witness :
    runPipeline ⟨3, 5, true, true, true⟩ 2 100 2 (.ok "a=1;")
        (fun _ _ => .ok []) = .error .configurationInvalid :=
  (config_invalid_fatal ⟨3, 5, true, true, true⟩ 2 100 2).1 (by decide)
    (.ok "a=1;") (fun _ _ => .ok [])


end JsRev
